import Mathlib

/-!
Shallow embedding of the `petite-ecole` repository's core modules
(`dyckpath.py` and `acyclic.py`) together with proofs of the spec's claims.

A Dyck path is a tuple of integers, modelled as `List Int`.  Boxes are pairs
of row indices, modelled as `Int × Int` (Python ints).  Sets of boxes
(`frozenset` in the source) are modelled as `Finset (Int × Int)`.

Python's dynamic type checks (`isinstance(path, tuple)`,
`isinstance(entry, int)`, tuple arity, `frozenset`-ness) are enforced by the
Lean types of the embedding and are therefore not re-modelled.
-/

namespace PetiteEcole

/-- Embedding of `dyckpath.is_dyck_path`: entries non-negative, adjacent
entries satisfy `path[i] < path[i+1] + 2`, and the path is empty or ends
in `0` (`path[-1] == 0` in the source). -/
def is_dyck_path (path : List Int) : Bool :=
  (path.all fun entry => decide (0 ≤ entry)) &&
  ((List.range (path.length - 1)).all fun i =>
    decide (path.getD i 0 < path.getD (i + 1) 0 + 2)) &&
  (path.length == 0 || path.getD (path.length - 1) 0 == 0)

/-- Embedding of `dyckpath.is_primitive`.  The source evaluates
`len(path) == 0 or path.index(0) == len(path) - 1`; `path.index(0)` raises
`ValueError` when `0` does not occur, which is modelled by `none`. -/
def is_primitive (path : List Int) : Option Bool :=
  if path.length = 0 then some true
  else if (0 : Int) ∈ path then
    some (path.indexOf 0 == path.length - 1)
  else none

/-- Python's implicit `bool → int` coercion in `range(primitive, ...)`. -/
def primInt (b : Bool) : Int :=
  if b then 1 else 0

/-- Embedding of the recursive generator `dyckpath.all_dyck_paths` for a
natural-number length.  Heads range over `range(primitive, tail[0] + 2)`. -/
def all_dyck_paths_nat : Nat → Bool → List (List Int)
  | 0, _ => [[]]
  | 1, _ => [[(0 : Int)]]
  | n + 2, primitive =>
    (all_dyck_paths_nat (n + 1) primitive).flatMap fun tail =>
      (List.range (tail.headD 0 + 2 - primInt primitive).toNat).map
        fun k : Nat => (primInt primitive + (k : Int)) :: tail

/-- Embedding of `dyckpath.all_dyck_paths` on a Python `int` argument: the
generator body tests `n == 0`, `n == 1`, `n >= 2` and falls through (yielding
nothing) on every negative `n`. -/
def all_dyck_paths (n : Int) (primitive : Bool) : List (List Int) :=
  if n < 0 then [] else all_dyck_paths_nat n.toNat primitive

/-- The boxes below `path`, as a list:
`{(i, j) for i, k in enumerate(path) for j in range(i+1, i+1+k)}`
before deduplication (the comprehension produces no duplicates anyway). -/
def rowBoxes (path : List Int) (i : Nat) : List (Int × Int) :=
  (List.range (path.getD i 0).toNat).map
    fun d : Nat => (((i : Nat) : Int), ((i + 1 + d : Nat) : Int))

def boxes_list (path : List Int) : List (Int × Int) :=
  (List.range path.length).flatMap (rowBoxes path)

/-- Embedding of `dyckpath.boxes_under_path` (the memoisation wrapper is
semantically transparent): the set of boxes `(i, j)` with
`i + 1 ≤ j ≤ i + path[i]`. -/
def boxes_under_path (path : List Int) : Finset (Int × Int) :=
  (boxes_list path).toFinset

/-- Python list indexing into a list of length `len`: indices `0 ≤ i < len`
are used directly, indices `-len ≤ i < 0` wrap to `len + i`, and anything
else raises `IndexError` (modelled as `none`). -/
def pyIdx (len : Nat) (i : Int) : Option Nat :=
  if 0 ≤ i ∧ i < (len : Int) then some i.toNat
  else if -(len : Int) ≤ i ∧ i < 0 then some (i + (len : Int)).toNat
  else none

/-- The path-reconstruction step of `acyclic.is_orientation`:
`path = [0]*n`, then `path[i] += 1` for every box `(i, j)` of `ascents` and
`descents`.  `[0]*n` is empty for `n ≤ 0`.  A box whose row index `i` is
outside Python's indexable range raises `IndexError`, which the source
catches and turns into `False`; here the whole reconstruction is `none`.
The resulting entry at (non-negative) index `k` is the number of boxes of
each set whose row index resolves to `k`. -/
def reconstructPath (n : Int) (ascents descents : Finset (Int × Int)) :
    Option (List Int) :=
  if (∀ b ∈ ascents, (pyIdx n.toNat b.1).isSome) ∧
     (∀ b ∈ descents, (pyIdx n.toNat b.1).isSome) then
    some ((List.range n.toNat).map fun k =>
      ((ascents.filter fun b => pyIdx n.toNat b.1 = some k).card : Int) +
      ((descents.filter fun b => pyIdx n.toNat b.1 = some k).card : Int))
  else none

/-- The 3-cycle scan of `acyclic.is_orientation`: over
`it.combinations(range(n), 3)`, i.e. triples `i < j < k` drawn from
`range(n)` (empty for `n ≤ 0`), test the two forbidden patterns. -/
def hasThreeCycle (n : Int) (ascents descents : Finset (Int × Int)) : Bool :=
  decide (∃ i ∈ Finset.range n.toNat, ∃ j ∈ Finset.range n.toNat,
    ∃ k ∈ Finset.range n.toNat, i < j ∧ j < k ∧
      ((((i : Int), (j : Int)) ∈ ascents ∧
        ((j : Int), (k : Int)) ∈ ascents ∧
        ((i : Int), (k : Int)) ∈ descents) ∨
       (((i : Int), (j : Int)) ∈ descents ∧
        ((j : Int), (k : Int)) ∈ descents ∧
        ((i : Int), (k : Int)) ∈ ascents)))

/-- Embedding of `acyclic.is_orientation` on a well-typed triple
`(n, ascents, descents)`.  The source's dynamic shape checks (tuple of
length 3, `int`, `frozenset`) hold by typing; the remaining checks are, in
order: reconstruct the underlying path (any caught exception gives
`False`), `is_dyck_path`, disjointness, exhaustiveness against
`boxes_under_path`, and absence of 3-cycles. -/
def is_orientation (ao : Int × Finset (Int × Int) × Finset (Int × Int)) :
    Bool :=
  match reconstructPath ao.1 ao.2.1 ao.2.2 with
  | none => false
  | some path =>
    is_dyck_path path &&
    (ao.2.1 ∩ ao.2.2 == (∅ : Finset (Int × Int))) &&
    (ao.2.1 ∪ ao.2.2 == boxes_under_path path) &&
    !(hasThreeCycle ao.1 ao.2.1 ao.2.2)

/-- Rank of row `x` under an ordering: `ordering[x]` in the source, where
`ordering` is a permutation tuple of `range(n)`.  For the boxes of a valid
Dyck path the index is always in range, so the `getD` default is inert. -/
def ordRank (ord : List Nat) (x : Int) : Nat :=
  ord.getD x.toNat 0

/-- The orientation built from one ordering inside
`acyclic.all_orientations`: every box with `ordering[i] < ordering[j]`
becomes an ascent, every other box a descent. -/
def orientation_of (path : List Int) (ord : List Nat) :
    Int × Finset (Int × Int) × Finset (Int × Int) :=
  ((path.length : Int),
   ((boxes_list path).filter fun b =>
     decide (ordRank ord b.1 < ordRank ord b.2)).toFinset,
   ((boxes_list path).filter fun b =>
     !decide (ordRank ord b.1 < ordRank ord b.2)).toFinset)

/-- Embedding of `acyclic.all_orientations`: classify the boxes under every
permutation of `range(n)` and collect the resulting triples into a set. -/
def all_orientations (path : List Int) :
    Finset (Int × Finset (Int × Int) × Finset (Int × Int)) :=
  (((List.range path.length).permutations).map (orientation_of path)).toFinset

/-! ### Basic lemmas about `is_dyck_path` -/

lemma is_dyck_path_iff (p : List Int) :
    is_dyck_path p = true ↔
      (∀ e ∈ p, 0 ≤ e) ∧
      (∀ i, i + 1 < p.length → p.getD i 0 < p.getD (i + 1) 0 + 2) ∧
      (p = [] ∨ p.getD (p.length - 1) 0 = 0) := by
  unfold is_dyck_path
  simp only [Bool.and_eq_true, List.all_eq_true, decide_eq_true_eq,
    Bool.or_eq_true, beq_iff_eq, List.mem_range, List.length_eq_zero]
  constructor
  · rintro ⟨⟨h1, h2⟩, h3⟩
    exact ⟨h1, fun i hi => h2 i (by omega), h3⟩
  · rintro ⟨h1, h2, h3⟩
    exact ⟨⟨h1, fun i hi => h2 i (by omega)⟩, h3⟩

lemma getD_zero_eq_headD (t : List Int) : t.getD 0 0 = t.headD 0 := by
  cases t <;> rfl

lemma adjacent_cons (h : Int) (t : List Int) :
    (∀ i, i + 1 < (h :: t).length →
        (h :: t).getD i 0 < (h :: t).getD (i + 1) 0 + 2) ↔
      ((t = [] ∨ h < t.headD 0 + 2) ∧
       (∀ i, i + 1 < t.length → t.getD i 0 < t.getD (i + 1) 0 + 2)) := by
  constructor
  · intro H
    refine ⟨?_, ?_⟩
    · cases t with
      | nil => exact Or.inl rfl
      | cons x t' =>
        refine Or.inr ?_
        have h0 := H 0 (by simp)
        simpa [getD_zero_eq_headD] using h0
    · intro i hi
      have hb : i + 1 + 1 < (h :: t).length := by
        simp only [List.length_cons]; omega
      have := H (i + 1) hb
      simpa using this
  · rintro ⟨H0, H⟩ i hi
    cases i with
    | zero =>
      cases t with
      | nil => simp at hi
      | cons x t' =>
        rcases H0 with h0 | h0
        · simp at h0
        · simpa [getD_zero_eq_headD] using h0
    | succ i' =>
      have hb : i' + 1 < t.length := by
        simp only [List.length_cons] at hi; omega
      have := H i' hb
      simpa using this

lemma getD_last_cons (h : Int) (t : List Int) (ht : t ≠ []) :
    (h :: t).getD ((h :: t).length - 1) 0 = t.getD (t.length - 1) 0 := by
  cases t with
  | nil => exact absurd rfl ht
  | cons x t' => simp

lemma is_dyck_path_cons (h : Int) (t : List Int) :
    is_dyck_path (h :: t) = true ↔
      (t = [] ∧ h = 0) ∨
      (t ≠ [] ∧ 0 ≤ h ∧ h < t.headD 0 + 2 ∧ is_dyck_path t = true) := by
  rw [is_dyck_path_iff]
  by_cases ht : t = []
  · subst ht
    constructor
    · rintro ⟨h1, -, h3⟩
      refine Or.inl ⟨rfl, ?_⟩
      rcases h3 with h3 | h3
      · exact absurd h3 (by simp)
      · simpa using h3
    · rintro (⟨-, rfl⟩ | ⟨hne, -⟩)
      · exact ⟨by simp, by simp, Or.inr (by simp)⟩
      · exact absurd rfl hne
  · rw [is_dyck_path_iff]
    constructor
    · rintro ⟨h1, h2, h3⟩
      have hadj := (adjacent_cons h t).1 h2
      refine Or.inr ⟨ht, h1 h (by simp), ?_, ?_, hadj.2, ?_⟩
      · rcases hadj.1 with h0 | h0
        · exact absurd h0 ht
        · exact h0
      · exact fun e he => h1 e (List.mem_cons_of_mem h he)
      · rcases h3 with h3 | h3
        · exact absurd h3 (by simp)
        · exact Or.inr (by rw [← getD_last_cons h t ht]; exact h3)
    · rintro (⟨habs, -⟩ | ⟨-, h0, hstep, h1, h2, h3⟩)
      · exact absurd habs ht
      · refine ⟨?_, ?_, ?_⟩
        · intro e he
          rcases List.mem_cons.1 he with rfl | he
          · exact h0
          · exact h1 e he
        · exact (adjacent_cons h t).2 ⟨Or.inr hstep, h2⟩
        · rcases h3 with h3 | h3
          · exact absurd h3 ht
          · exact Or.inr (by rw [getD_last_cons h t ht]; exact h3)

/-- C10: for every negative `n` and either flag, `all_dyck_paths` falls
through all three branches of the generator body and yields nothing (and,
being a plain total function in this embedding, raises nothing). -/
theorem all_dyck_paths_neg_empty (n : Int) (hn : n < 0) (primitive : Bool) :
    all_dyck_paths n primitive = [] := by
  unfold all_dyck_paths
  rw [if_pos hn]

/-- Witness for `all_dyck_paths_neg_empty` at `n = -3`. -/
theorem all_dyck_paths_neg_empty_witness :
    (-3 : Int) < 0 ∧ all_dyck_paths (-3) true = [] :=
  ⟨by decide, all_dyck_paths_neg_empty (-3) (by decide) true⟩

/-- C4: the number of Dyck paths of length `n` for `n = 0..6` follows the
Catalan sequence `1, 1, 2, 5, 14, 42, 132`, and for `n = 1..6` the number
of primitive Dyck paths of length `n` equals the number of Dyck paths of
length `n - 1`. -/
theorem all_dyck_paths_catalan_counts :
    ((all_dyck_paths 0 false).length = 1 ∧
     (all_dyck_paths 1 false).length = 1 ∧
     (all_dyck_paths 2 false).length = 2 ∧
     (all_dyck_paths 3 false).length = 5 ∧
     (all_dyck_paths 4 false).length = 14 ∧
     (all_dyck_paths 5 false).length = 42 ∧
     (all_dyck_paths 6 false).length = 132) ∧
    ((all_dyck_paths 1 true).length = (all_dyck_paths 0 false).length ∧
     (all_dyck_paths 2 true).length = (all_dyck_paths 1 false).length ∧
     (all_dyck_paths 3 true).length = (all_dyck_paths 2 false).length ∧
     (all_dyck_paths 4 true).length = (all_dyck_paths 3 false).length ∧
     (all_dyck_paths 5 true).length = (all_dyck_paths 4 false).length ∧
     (all_dyck_paths 6 true).length = (all_dyck_paths 5 false).length) := by
  set_option maxRecDepth 20000 in decide

lemma getD_last_eq_getLast (p : List Int) (hp : p ≠ []) :
    p.getD (p.length - 1) 0 = p.getLast hp := by
  have hlen : 0 < p.length := List.length_pos.2 hp
  rw [List.getLast_eq_getElem, List.getD_eq_getElem _ _ (by omega)]

/-- C5: `is_dyck_path path` is true exactly when every entry is
non-negative, every adjacent pair satisfies `path[i] < path[i+1] + 2`,
and the sequence is empty or its last entry is `0`. -/
theorem is_dyck_path_characterization (path : List Int) :
    is_dyck_path path = true ↔
      ((∀ e ∈ path, 0 ≤ e) ∧
       (∀ (i : Nat) (h : i + 1 < path.length),
         path.get ⟨i, by omega⟩ < path.get ⟨i + 1, h⟩ + 2) ∧
       (path = [] ∨ path.getLast? = some 0)) := by
  by_cases hp : path = []
  · subst hp
    refine iff_of_true rfl ⟨by simp, by simp, Or.inl rfl⟩
  · rw [is_dyck_path_iff]
    constructor
    · rintro ⟨h1, h2, h3⟩
      refine ⟨h1, ?_, Or.inr ?_⟩
      · intro i h
        have := h2 i h
        rwa [List.getD_eq_get _ _ (by omega), List.getD_eq_get _ _ h]
          at this
      · rcases h3 with h3 | h3
        · exact absurd h3 hp
        · rw [List.getLast?_eq_getLast_of_ne_nil hp,
            ← getD_last_eq_getLast path hp, h3]
    · rintro ⟨h1, h2, h3⟩
      refine ⟨h1, ?_, Or.inr ?_⟩
      · intro i hi
        rw [List.getD_eq_get _ _ (by omega), List.getD_eq_get _ _ hi]
        exact h2 i hi
      · rcases h3 with h3 | h3
        · exact absurd h3 hp
        · rw [List.getLast?_eq_getLast_of_ne_nil hp] at h3
          rw [getD_last_eq_getLast path hp]
          exact Option.some_injective _ h3

/-! ### Lemmas about `is_primitive` -/

lemma get_ne_of_lt_indexOf (p : List Int) :
    ∀ (i : Nat) (hi : i < p.length), i < p.indexOf 0 → p.get ⟨i, hi⟩ ≠ 0 := by
  induction p with
  | nil => intro i hi; simp at hi
  | cons x t ih =>
    intro i hi hlt
    by_cases hx : x = 0
    · subst hx
      rw [List.indexOf_cons_self] at hlt
      omega
    · cases i with
      | zero => simpa using hx
      | succ i' =>
        rw [List.indexOf_cons_ne _ hx] at hlt
        exact ih i' (by simpa using Nat.lt_of_succ_lt_succ hi)
          (Nat.lt_of_succ_lt_succ hlt)

/-- C7 counterexample: the claim asserts `is_primitive` returns a boolean
on every sequence of integers, but on `(1, 1, 1)` the source evaluates
`(1, 1, 1).index(0)` which raises `ValueError` (no zero occurs), so no
boolean is returned. -/
theorem is_primitive_raises_on_no_zero :
    is_primitive [1, 1, 1] = none := by decide

/-- C7 (amended): `is_primitive` returns a boolean exactly on inputs that
are empty or contain a `0` (on a non-empty zero-free input `path.index(0)`
raises `ValueError`), and when it returns a boolean, that boolean is true
iff the path is empty or the first occurrence of `0` is at the final
index. -/
theorem is_primitive_characterization (path : List Int) :
    ((is_primitive path).isSome ↔ (path = [] ∨ (0 : Int) ∈ path)) ∧
    (is_primitive path = some true ↔
      (path = [] ∨ (path.getLast? = some 0 ∧
        ∀ (i : Nat) (h : i < path.length - 1),
          path.get ⟨i, by omega⟩ ≠ 0))) := by
  by_cases hp : path = []
  · subst hp
    exact ⟨by simp [is_primitive], by simp [is_primitive]⟩
  · have hlen : 0 < path.length := List.length_pos.2 hp
    by_cases h0 : (0 : Int) ∈ path
    · have hidx : path.indexOf 0 < path.length := List.indexOf_lt_length.2 h0
      constructor
      · simp only [is_primitive, if_neg (by omega : ¬path.length = 0),
          if_pos h0, Option.isSome_some, true_iff]
        exact Or.inr h0
      · simp only [is_primitive, if_neg (by omega : ¬path.length = 0),
          if_pos h0, Option.some.injEq, beq_iff_eq]
        constructor
        · intro heq
          refine Or.inr ⟨?_, ?_⟩
          · rw [List.getLast?_eq_getLast_of_ne_nil hp,
              ← getD_last_eq_getLast path hp, ← heq,
              List.getD_eq_getElem _ _ hidx]
            exact congrArg some (List.getElem_indexOf hidx)
          · intro i hi
            exact get_ne_of_lt_indexOf path i (by omega) (by omega)
        · rintro (habs | ⟨hlast, hmin⟩)
          · exact absurd habs hp
          · by_contra hne
            have hlt : path.indexOf 0 < path.length - 1 := by omega
            have := hmin (path.indexOf 0) hlt
            exact this (List.indexOf_get hidx)
    · have hnone : is_primitive path = none := by
        unfold is_primitive
        rw [if_neg (by omega : ¬path.length = 0), if_neg h0]
      constructor
      · rw [hnone]
        simp only [Option.isSome_none, Bool.false_eq_true, false_iff]
        push_neg
        exact ⟨hp, h0⟩
      · rw [hnone]
        constructor
        · intro habs
          exact absurd habs (by simp)
        · rintro (habs | ⟨hlast, -⟩)
          · exact absurd habs hp
          · rw [List.getLast?_eq_getLast_of_ne_nil hp] at hlast
            have : (0 : Int) ∈ path := by
              have := List.getLast_mem hp
              rwa [Option.some_injective _ hlast] at this
            exact absurd this h0

/-! ### Lemmas about `boxes_under_path` -/

lemma mem_boxes_list (p : List Int) (b : Int × Int) :
    b ∈ boxes_list p ↔ ∃ i j : Nat, b = ((i : Int), (j : Int)) ∧
      i < p.length ∧ i < j ∧ (j : Int) ≤ (i : Int) + p.getD i 0 := by
  unfold boxes_list rowBoxes
  constructor
  · intro hb
    obtain ⟨i, hi, hmem⟩ := List.mem_flatMap.1 hb
    obtain ⟨d, hd, heq⟩ := List.mem_map.1 hmem
    rw [List.mem_range] at hi hd
    refine ⟨i, i + 1 + d, heq.symm, hi, by omega, ?_⟩
    push_cast
    omega
  · rintro ⟨i, j, rfl, hi, hij, hj⟩
    refine List.mem_flatMap.2 ⟨i, List.mem_range.2 hi, ?_⟩
    refine List.mem_map.2 ⟨j - i - 1, List.mem_range.2 (by omega), ?_⟩
    have hj' : i + 1 + (j - i - 1) = j := by omega
    rw [hj']

lemma mem_boxes_under_path (p : List Int) (b : Int × Int) :
    b ∈ boxes_under_path p ↔ ∃ i j : Nat, b = ((i : Int), (j : Int)) ∧
      i < p.length ∧ i < j ∧ (j : Int) ≤ (i : Int) + p.getD i 0 := by
  rw [boxes_under_path, List.mem_toFinset, mem_boxes_list]

lemma nodup_boxes_list (p : List Int) : (boxes_list p).Nodup := by
  unfold boxes_list rowBoxes
  rw [List.nodup_flatMap]
  constructor
  · intro i _
    refine (List.nodup_range _).map ?_
    intro d₁ d₂ h
    simp only [Prod.mk.injEq, Nat.cast_inj] at h
    omega
  · refine (List.pairwise_lt_range _).imp ?_
    intro i₁ i₂ hlt a ha₁ ha₂
    obtain ⟨d₁, -, rfl⟩ := List.mem_map.1 ha₁
    obtain ⟨d₂, -, heq⟩ := List.mem_map.1 ha₂
    simp only [Prod.mk.injEq, Nat.cast_inj] at heq
    omega

lemma length_boxes_list (p : List Int) :
    (boxes_list p).length =
      ((List.range p.length).map fun i => (p.getD i 0).toNat).sum := by
  unfold boxes_list rowBoxes
  rw [List.length_flatMap]
  congr 1
  refine List.map_congr_left ?_
  intro i _
  simp

lemma sum_toNat_getD (p : List Int) (hpos : ∀ e ∈ p, 0 ≤ e) :
    ((((List.range p.length).map fun i => (p.getD i 0).toNat).sum : Nat) :
      Int) = p.sum := by
  induction p with
  | nil => simp
  | cons x t ih =>
    have hx : 0 ≤ x := hpos x (by simp)
    have ht : ∀ e ∈ t, 0 ≤ e := fun e he => hpos e (List.mem_cons_of_mem _ he)
    rw [List.length_cons, List.range_succ_eq_map, List.map_cons, List.map_map,
      List.sum_cons]
    have hmap : (List.range t.length).map ((fun i => ((x :: t).getD i 0).toNat)
        ∘ Nat.succ) = (List.range t.length).map fun i => (t.getD i 0).toNat := by
      refine List.map_congr_left ?_
      intro i _
      simp
    rw [hmap, Nat.cast_add, ih ht, List.getD_cons_zero,
      Int.toNat_of_nonneg hx, List.sum_cons]

/-- C6: `boxes_under_path path` is exactly the set of pairs `(i, j)` with
`i` a row index of `path` and `i + 1 ≤ j ≤ i + path[i]`, and for a valid
Dyck path its cardinality is the sum of the entries. -/
theorem boxes_under_path_characterization (path : List Int) :
    (∀ b : Int × Int, b ∈ boxes_under_path path ↔
      ∃ i j : Nat, b = ((i : Int), (j : Int)) ∧ i < path.length ∧
        i < j ∧ (j : Int) ≤ (i : Int) + path.getD i 0) ∧
    (is_dyck_path path = true →
      ((boxes_under_path path).card : Int) = path.sum) := by
  refine ⟨mem_boxes_under_path path, ?_⟩
  intro hd
  have hpos : ∀ e ∈ path, 0 ≤ e := ((is_dyck_path_iff path).1 hd).1
  rw [boxes_under_path, List.toFinset_card_of_nodup (nodup_boxes_list path),
    length_boxes_list]
  exact sum_toNat_getD path hpos

/-- Witness for `boxes_under_path_characterization`: instantiated at the
path `(2, 1, 0)`, whose box set has the 3 boxes `(0,1), (0,2), (1,2)`. -/
theorem boxes_under_path_characterization_witness :
    is_dyck_path [2, 1, 0] = true ∧
    ((boxes_under_path [2, 1, 0]).card : Int) = ([2, 1, 0] : List Int).sum :=
  ⟨by decide, (boxes_under_path_characterization [2, 1, 0]).2 (by decide)⟩

/-! ### Lemmas about `pyIdx`, `reconstructPath` and `is_orientation` -/

lemma pyIdx_isSome_iff (len : Nat) (i : Int) :
    (pyIdx len i).isSome = true ↔ -(len : Int) ≤ i ∧ i < (len : Int) := by
  unfold pyIdx
  split_ifs with h1 h2 <;> simp <;> omega

lemma pyIdx_of_nonneg (len : Nat) (i : Int) (h0 : 0 ≤ i) (h1 : i < len) :
    pyIdx len i = some i.toNat := by
  unfold pyIdx
  rw [if_pos ⟨h0, h1⟩]

lemma reconstructPath_eq_some_iff (n : Int) (asc desc : Finset (Int × Int))
    (path : List Int) :
    reconstructPath n asc desc = some path ↔
      (∀ b ∈ asc, (pyIdx n.toNat b.1).isSome) ∧
      (∀ b ∈ desc, (pyIdx n.toNat b.1).isSome) ∧
      path = (List.range n.toNat).map fun k =>
        ((asc.filter fun b => pyIdx n.toNat b.1 = some k).card : Int) +
        ((desc.filter fun b => pyIdx n.toNat b.1 = some k).card : Int) := by
  unfold reconstructPath
  split_ifs with hc
  · simp only [Option.some.injEq]
    constructor
    · rintro rfl
      exact ⟨hc.1, hc.2, rfl⟩
    · rintro ⟨-, -, rfl⟩
      rfl
  · constructor
    · intro habs
      exact absurd habs (by simp)
    · rintro ⟨h1, h2, -⟩
      exact absurd ⟨h1, h2⟩ hc

lemma is_orientation_of_reconstruct_none
    (ao : Int × Finset (Int × Int) × Finset (Int × Int))
    (h : reconstructPath ao.1 ao.2.1 ao.2.2 = none) :
    is_orientation ao = false := by
  unfold is_orientation
  rw [h]

lemma is_orientation_of_reconstruct_some
    (ao : Int × Finset (Int × Int) × Finset (Int × Int)) (path : List Int)
    (h : reconstructPath ao.1 ao.2.1 ao.2.2 = some path) :
    is_orientation ao =
      (is_dyck_path path &&
       (ao.2.1 ∩ ao.2.2 == (∅ : Finset (Int × Int))) &&
       (ao.2.1 ∪ ao.2.2 == boxes_under_path path) &&
       !(hasThreeCycle ao.1 ao.2.1 ao.2.2)) := by
  unfold is_orientation
  rw [h]

lemma fst_nonneg_of_mem_boxes (p : List Int) (b : Int × Int)
    (hb : b ∈ boxes_under_path p) : 0 ≤ b.1 := by
  obtain ⟨i, j, rfl, -, -, -⟩ := (mem_boxes_under_path p b).1 hb
  exact Int.natCast_nonneg i

/-- C8: the validators are total boolean functions in this embedding, and
`is_orientation` rejects (returns `false`, rather than raising) any triple
containing a box whose row index lies outside `0 .. n-1`: an index outside
Python's indexable range `-n .. n-1` is an `IndexError` caught by the
source, and a negative index in `-n .. -1` (silently accepted by Python
indexing) is rejected by the exhaustiveness comparison with
`boxes_under_path`, whose boxes all have non-negative row indices. -/
theorem is_orientation_rejects_out_of_range (n : Int)
    (asc desc : Finset (Int × Int))
    (h : ∃ b ∈ asc ∪ desc, b.1 < 0 ∨ n - 1 < b.1) :
    is_orientation (n, asc, desc) = false := by
  obtain ⟨b, hb, hout⟩ := h
  cases hrec : reconstructPath n asc desc with
  | none => exact is_orientation_of_reconstruct_none (n, asc, desc) hrec
  | some path =>
    obtain ⟨h1, h2, -⟩ := (reconstructPath_eq_some_iff n asc desc path).1 hrec
    have hsome : (pyIdx n.toNat b.1).isSome := by
      rcases Finset.mem_union.1 hb with hba | hbd
      · exact h1 b hba
      · exact h2 b hbd
    have hrange := (pyIdx_isSome_iff n.toNat b.1).1 hsome
    have hneg : b.1 < 0 := by omega
    rw [is_orientation_of_reconstruct_some (n, asc, desc) path hrec]
    have hne : (asc ∪ desc == boxes_under_path path) = false := by
      rw [beq_eq_false_iff_ne]
      intro heq
      have : b ∈ boxes_under_path path := heq ▸ hb
      have := fst_nonneg_of_mem_boxes path b this
      omega
    rw [hne]
    simp

/-- Witness for `is_orientation_rejects_out_of_range`: the box `(-1, 1)`
has a negative row index, which Python indexing would accept, yet the
triple is rejected. -/
theorem is_orientation_rejects_out_of_range_witness :
    (∃ b ∈ ({((-1 : Int), (1 : Int))} : Finset (Int × Int)) ∪
        (∅ : Finset (Int × Int)), b.1 < 0 ∨ (2 : Int) - 1 < b.1) ∧
    is_orientation (2, {((-1 : Int), (1 : Int))}, ∅) = false :=
  ⟨by decide, is_orientation_rejects_out_of_range 2 _ _ (by decide)⟩

/-! ### Exactness of the Dyck-path enumerator -/

lemma primInt_cases (b : Bool) :
    (b = true → primInt b = 1) ∧ (b = false → primInt b = 0) := by
  cases b <;> simp [primInt]

lemma is_primitive_cons_ne (h : Int) (t : List Int) (hh : h ≠ 0)
    (ht : t ≠ []) : is_primitive (h :: t) = is_primitive t := by
  have hlen : 0 < t.length := List.length_pos.2 ht
  unfold is_primitive
  rw [if_neg (by simp : ¬(h :: t).length = 0),
    if_neg (by omega : ¬t.length = 0)]
  by_cases h0 : (0 : Int) ∈ t
  · rw [if_pos (List.mem_cons_of_mem h h0), if_pos h0]
    have hidx : t.indexOf 0 < t.length := List.indexOf_lt_length.2 h0
    rw [List.indexOf_cons_ne t hh]
    congr 1
    rw [Bool.eq_iff_iff]
    simp only [beq_iff_eq, List.length_cons]
    omega
  · rw [if_neg ?_, if_neg h0]
    intro hmem
    rcases List.mem_cons.1 hmem with heq | hmem'
    · exact hh heq.symm
    · exact h0 hmem'

lemma is_primitive_cons_zero (t : List Int) (ht : t ≠ []) :
    is_primitive ((0 : Int) :: t) = some false := by
  have hlen : 0 < t.length := List.length_pos.2 ht
  unfold is_primitive
  rw [if_neg (by simp : ¬((0 : Int) :: t).length = 0),
    if_pos (List.mem_cons_self _ _)]
  rw [List.indexOf_cons_self]
  congr 1
  simp only [List.length_cons, Nat.add_sub_cancel]
  rw [beq_eq_false_iff_ne]
  omega

lemma dyck_headD_nonneg (t : List Int) (ht : t ≠ [])
    (hd : is_dyck_path t = true) : 0 ≤ t.headD 0 := by
  cases t with
  | nil => exact absurd rfl ht
  | cons x t' =>
    have := ((is_dyck_path_iff _).1 hd).1 x (by simp)
    simpa using this

lemma mem_all_dyck_paths_nat (m : Nat) (prim : Bool) (t : List Int) :
    t ∈ all_dyck_paths_nat m prim ↔
      (t.length = m ∧ is_dyck_path t = true ∧
       (prim = true → is_primitive t = some true)) := by
  induction m using Nat.strong_induction_on generalizing t with
  | _ m ih =>
    match m with
    | 0 =>
      simp only [all_dyck_paths_nat, List.mem_singleton]
      constructor
      · rintro rfl
        exact ⟨rfl, rfl, fun _ => rfl⟩
      · rintro ⟨hlen, -, -⟩
        exact List.length_eq_zero.1 hlen
    | 1 =>
      simp only [all_dyck_paths_nat, List.mem_singleton]
      constructor
      · rintro rfl
        exact ⟨rfl, by decide, fun _ => by decide⟩
      · rintro ⟨hlen, hd, -⟩
        match t, hlen with
        | [x], _ =>
          rcases (is_dyck_path_cons x []).1 hd with ⟨-, rfl⟩ | ⟨habs, -⟩
          · rfl
          · exact absurd rfl habs
    | m + 2 =>
      simp only [all_dyck_paths_nat, List.mem_flatMap, List.mem_map,
        List.mem_range]
      have hprim0 : 0 ≤ primInt prim := by
        cases prim <;> simp [primInt]
      have hprim1 : primInt prim ≤ 1 := by
        cases prim <;> simp [primInt]
      constructor
      · rintro ⟨tail, htail, k, hk, rfl⟩
        obtain ⟨hlen, hd, hpr⟩ := (ih (m + 1) (by omega) tail).1 htail
        have htne : tail ≠ [] := by
          intro habs
          rw [habs] at hlen
          simp at hlen
        have hhead0 : 0 ≤ tail.headD 0 := dyck_headD_nonneg tail htne hd
        refine ⟨by simp [hlen], ?_, ?_⟩
        · rw [is_dyck_path_cons]
          exact Or.inr ⟨htne, by omega, by omega, hd⟩
        · intro hp
          have hp1 : primInt prim = 1 := (primInt_cases prim).1 hp
          rw [is_primitive_cons_ne _ _ (by omega) htne]
          exact hpr hp
      · rintro ⟨hlen, hd, hpr⟩
        match t with
        | h :: tail =>
          have hlen' : tail.length = m + 1 := by simpa using hlen
          have htne : tail ≠ [] := by
            intro habs
            rw [habs] at hlen'
            simp at hlen'
          rcases (is_dyck_path_cons h tail).1 hd with ⟨habs, -⟩ |
            ⟨-, hh0, hstep, hdt⟩
          · exact absurd habs htne
          · have hfloor : primInt prim ≤ h := by
              rcases Bool.eq_false_or_eq_true prim with hb | hb
              · rw [(primInt_cases prim).1 hb]
                by_contra hlt
                have hz : h = 0 := by omega
                subst hz
                have := hpr hb
                rw [is_primitive_cons_zero tail htne] at this
                simp at this
              · rw [(primInt_cases prim).2 hb]
                exact hh0
            have hprtail : prim = true → is_primitive tail = some true := by
              intro hb
              have hne : h ≠ 0 := by
                have h1 := (primInt_cases prim).1 hb
                omega
              have := hpr hb
              rwa [is_primitive_cons_ne h tail hne htne] at this
            refine ⟨tail, (ih (m + 1) (by omega) tail).2 ⟨hlen', hdt, hprtail⟩,
              (h - primInt prim).toNat, by omega, ?_⟩
            have : primInt prim + ((h - primInt prim).toNat : Int) = h := by
              omega
            rw [this]

lemma nodup_all_dyck_paths_nat (m : Nat) (prim : Bool) :
    (all_dyck_paths_nat m prim).Nodup := by
  induction m using Nat.strong_induction_on with
  | _ m ih =>
    match m with
    | 0 => simp [all_dyck_paths_nat]
    | 1 => simp [all_dyck_paths_nat]
    | m + 2 =>
      simp only [all_dyck_paths_nat]
      rw [List.nodup_flatMap]
      constructor
      · intro tail _
        refine (List.nodup_range _).map ?_
        intro k₁ k₂ he
        have : primInt prim + (k₁ : Int) = primInt prim + (k₂ : Int) :=
          (List.cons.injEq _ _ _ _ ▸ he).1
        omega
      · refine (ih (m + 1) (by omega)).imp ?_
        intro t₁ t₂ hne a ha₁ ha₂
        obtain ⟨k₁, -, rfl⟩ := List.mem_map.1 ha₁
        obtain ⟨k₂, -, he⟩ := List.mem_map.1 ha₂
        exact hne (List.cons.injEq _ _ _ _ ▸ he).2.symm

/-- C3: for every integer `n ≥ 0` and either flag, `all_dyck_paths n
primitive` yields exactly the length-`n` tuples passing `is_dyck_path`
(and, when `primitive` is set, `is_primitive`), each exactly once. -/
theorem all_dyck_paths_exact (n : Int) (hn : 0 ≤ n) (prim : Bool) :
    (∀ t : List Int, t ∈ all_dyck_paths n prim ↔
      ((t.length : Int) = n ∧ is_dyck_path t = true ∧
       (prim = true → is_primitive t = some true))) ∧
    (all_dyck_paths n prim).Nodup := by
  unfold all_dyck_paths
  rw [if_neg (by omega : ¬n < 0)]
  refine ⟨?_, nodup_all_dyck_paths_nat n.toNat prim⟩
  intro t
  rw [mem_all_dyck_paths_nat]
  constructor
  · rintro ⟨hlen, hd, hp⟩
    exact ⟨by omega, hd, hp⟩
  · rintro ⟨hlen, hd, hp⟩
    exact ⟨by omega, hd, hp⟩

/-- Witness for `all_dyck_paths_exact`: the generator at `n = 2` contains
the path `(1, 0)`. -/
theorem all_dyck_paths_exact_witness :
    ([1, 0] : List Int) ∈ all_dyck_paths 2 false :=
  ((all_dyck_paths_exact 2 (by decide) false).1 [1, 0]).mpr
    ⟨by decide, by decide, by decide⟩

/-! ### Row counts of the box set -/

lemma length_rowBoxes (p : List Int) (i : Nat) :
    (rowBoxes p i).length = (p.getD i 0).toNat := by
  simp [rowBoxes]

lemma fst_of_mem_rowBoxes (p : List Int) (i : Nat) (b : Int × Int)
    (hb : b ∈ rowBoxes p i) : b.1 = (i : Int) := by
  obtain ⟨d, -, rfl⟩ := List.mem_map.1 hb
  rfl

lemma length_flatMap_range_single (g : Nat → List (Int × Int)) :
    ∀ n k : Nat, k < n → (∀ i, i < n → i ≠ k → g i = []) →
      ((List.range n).flatMap g).length = (g k).length := by
  intro n
  induction n with
  | zero => intro k hk; omega
  | succ m ih =>
    intro k hk hg
    rw [List.range_succ, List.flatMap_append, List.length_append]
    by_cases hkm : k = m
    · have h0 : (List.range m).flatMap g = [] :=
        List.flatMap_eq_nil_iff.2 fun i hi =>
          hg i (by simp at hi; omega) (by simp at hi; omega)
      rw [h0]
      simp [hkm]
    · rw [ih k (by omega) fun i hi hne => hg i (by omega) hne]
      have hm : g m = [] := hg m (by omega) (Ne.symm hkm)
      simp [hm]

lemma length_filter_partition (l : List (Int × Int)) (f : Int × Int → Bool) :
    (l.filter f).length + (l.filter fun a => !f a).length = l.length := by
  induction l with
  | nil => rfl
  | cons x t ih =>
    by_cases hx : f x <;> simp [List.filter_cons, hx] <;> omega

lemma pyIdx_natCast (len k i : Nat) (hi : i < len) :
    pyIdx len ((i : Nat) : Int) = some k ↔ i = k := by
  rw [pyIdx_of_nonneg len i (by positivity) (by exact_mod_cast hi)]
  simp

lemma length_filter_boxes_row (p : List Int) (k : Nat) (hk : k < p.length) :
    ((boxes_list p).filter
        (fun b => decide (pyIdx p.length b.1 = some k))).length
      = (p.getD k 0).toNat := by
  unfold boxes_list
  rw [List.filter_flatMap]
  rw [length_flatMap_range_single _ p.length k hk ?side]
  case side =>
    intro i hi hne
    rw [List.filter_eq_nil_iff]
    intro b hb
    rw [fst_of_mem_rowBoxes p i b hb]
    simp only [decide_eq_true_eq]
    rw [pyIdx_natCast p.length k i hi]
    exact hne
  · rw [List.filter_eq_self.2, length_rowBoxes]
    intro b hb
    rw [fst_of_mem_rowBoxes p k b hb]
    simp only [decide_eq_true_eq]
    rw [pyIdx_natCast p.length k k hk]

lemma card_filter_boxes_row (p : List Int) (k : Nat) (hk : k < p.length) :
    ((boxes_under_path p).filter fun b => pyIdx p.length b.1 = some k).card
      = (p.getD k 0).toNat := by
  have h1 : (boxes_under_path p).filter
        (fun b => pyIdx p.length b.1 = some k)
      = ((boxes_list p).filter
        (fun b => decide (pyIdx p.length b.1 = some k))).toFinset := by
    rw [List.toFinset_filter, boxes_under_path]
    exact (Finset.filter_congr fun b _ => by simp).symm
  rw [h1, List.toFinset_card_of_nodup ((nodup_boxes_list p).filter _),
    length_filter_boxes_row p k hk]

lemma card_filter_row_partition (p : List Int) (A D : Finset (Int × Int))
    (hU : A ∪ D = boxes_under_path p) (hI : A ∩ D = ∅) (k : Nat)
    (hk : k < p.length) :
    (A.filter fun b => pyIdx p.length b.1 = some k).card +
    (D.filter fun b => pyIdx p.length b.1 = some k).card
      = (p.getD k 0).toNat := by
  have hdisj : Disjoint A D := Finset.disjoint_iff_inter_eq_empty.2 hI
  have hfd : Disjoint (A.filter fun b => pyIdx p.length b.1 = some k)
      (D.filter fun b => pyIdx p.length b.1 = some k) :=
    hdisj.mono (Finset.filter_subset _ _) (Finset.filter_subset _ _)
  rw [← Finset.card_union_of_disjoint hfd, ← Finset.filter_union, hU]
  exact card_filter_boxes_row p k hk

/-! ### Reconstruction and the orientations produced by the enumerator -/

lemma reconstructPath_of_partition (p : List Int)
    (hd : is_dyck_path p = true) (A D : Finset (Int × Int))
    (hU : A ∪ D = boxes_under_path p) (hI : A ∩ D = ∅) :
    reconstructPath (p.length : Int) A D = some p := by
  have htn : ((p.length : Int)).toNat = p.length := Int.toNat_natCast _
  have hpos : ∀ e ∈ p, 0 ≤ e := ((is_dyck_path_iff p).1 hd).1
  rw [reconstructPath_eq_some_iff]
  have hsub : ∀ b ∈ A ∪ D, (pyIdx (p.length : Int).toNat b.1).isSome := by
    intro b hb
    rw [hU] at hb
    obtain ⟨i, j, rfl, hi, -, -⟩ := (mem_boxes_under_path p b).1 hb
    dsimp only
    rw [htn, pyIdx_of_nonneg _ _ (by positivity) (by exact_mod_cast hi)]
    rfl
  refine ⟨fun b hb => hsub b (Finset.mem_union_left _ hb),
    fun b hb => hsub b (Finset.mem_union_right _ hb), ?_⟩
  simp only [htn]
  refine List.ext_getElem (by simp) ?_
  intro n h1 h2
  rw [List.getElem_map, List.getElem_range]
  have hcard := card_filter_row_partition p A D hU hI n h1
  have hgd : p.getD n 0 = p[n] := List.getD_eq_getElem p 0 h1
  have hentry : 0 ≤ p.getD n 0 := by
    rw [hgd]
    exact hpos _ (List.getElem_mem _)
  omega

lemma mem_orientation_of_asc (p : List Int) (ord : List Nat)
    (b : Int × Int) :
    b ∈ (orientation_of p ord).2.1 ↔
      b ∈ boxes_list p ∧ ordRank ord b.1 < ordRank ord b.2 := by
  simp [orientation_of, List.mem_filter]

lemma mem_orientation_of_desc (p : List Int) (ord : List Nat)
    (b : Int × Int) :
    b ∈ (orientation_of p ord).2.2 ↔
      b ∈ boxes_list p ∧ ¬(ordRank ord b.1 < ordRank ord b.2) := by
  simp [orientation_of, List.mem_filter]

lemma orientation_of_union (p : List Int) (ord : List Nat) :
    (orientation_of p ord).2.1 ∪ (orientation_of p ord).2.2
      = boxes_under_path p := by
  ext b
  rw [Finset.mem_union, mem_orientation_of_asc, mem_orientation_of_desc,
    boxes_under_path, List.mem_toFinset]
  constructor
  · rintro (⟨hb, -⟩ | ⟨hb, -⟩) <;> exact hb
  · intro hb
    by_cases hlt : ordRank ord b.1 < ordRank ord b.2
    · exact Or.inl ⟨hb, hlt⟩
    · exact Or.inr ⟨hb, hlt⟩

lemma orientation_of_inter (p : List Int) (ord : List Nat) :
    (orientation_of p ord).2.1 ∩ (orientation_of p ord).2.2 = ∅ := by
  ext b
  simp only [Finset.mem_inter, mem_orientation_of_asc,
    mem_orientation_of_desc, Finset.not_mem_empty, iff_false, not_and]
  intro h1 h2
  exact fun hn => hn h1.2

/-- C9: every triple produced by `all_orientations p` for a valid Dyck
path `p` carries `n = len(p)`, has disjoint ascent/descent sets whose
union is exactly `boxes_under_path p`, and reconstructing the path from
the box counts per row gives back `p`. -/
theorem all_orientations_round_trip (p : List Int)
    (hd : is_dyck_path p = true)
    (ao : Int × Finset (Int × Int) × Finset (Int × Int))
    (hao : ao ∈ all_orientations p) :
    ao.1 = (p.length : Int) ∧ ao.2.1 ∩ ao.2.2 = ∅ ∧
    ao.2.1 ∪ ao.2.2 = boxes_under_path p ∧
    reconstructPath ao.1 ao.2.1 ao.2.2 = some p := by
  obtain ⟨ord, -, rfl⟩ := List.mem_map.1 (List.mem_toFinset.1 hao)
  exact ⟨rfl, orientation_of_inter p ord, orientation_of_union p ord,
    reconstructPath_of_partition p hd _ _ (orientation_of_union p ord)
      (orientation_of_inter p ord)⟩

/-- Witness for `all_orientations_round_trip` on the path `(1, 0)` and the
orientation generated by the identity ordering. -/
theorem all_orientations_round_trip_witness :
    (orientation_of [1, 0] [0, 1]).1 = (([1, 0] : List Int).length : Int) ∧
    (orientation_of [1, 0] [0, 1]).2.1 ∩
      (orientation_of [1, 0] [0, 1]).2.2 = ∅ ∧
    (orientation_of [1, 0] [0, 1]).2.1 ∪
      (orientation_of [1, 0] [0, 1]).2.2 = boxes_under_path [1, 0] ∧
    reconstructPath (orientation_of [1, 0] [0, 1]).1
      (orientation_of [1, 0] [0, 1]).2.1
      (orientation_of [1, 0] [0, 1]).2.2 = some [1, 0] :=
  all_orientations_round_trip [1, 0] (by decide) _
    (List.mem_toFinset.2 (List.mem_map.2 ⟨[0, 1], by decide, rfl⟩))

lemma is_orientation_orientation_of (p : List Int)
    (hd : is_dyck_path p = true) (ord : List Nat) :
    is_orientation (orientation_of p ord) = true := by
  have hrec : reconstructPath (orientation_of p ord).1
      (orientation_of p ord).2.1 (orientation_of p ord).2.2 = some p :=
    reconstructPath_of_partition p hd _ _ (orientation_of_union p ord)
      (orientation_of_inter p ord)
  rw [is_orientation_of_reconstruct_some _ p hrec]
  simp only [Bool.and_eq_true, beq_iff_eq, Bool.not_eq_true']
  refine ⟨⟨⟨hd, orientation_of_inter p ord⟩, orientation_of_union p ord⟩, ?_⟩
  rw [hasThreeCycle, decide_eq_false_iff_not]
  rintro ⟨i, -, j, -, k, -, hij, hjk, hpat | hpat⟩
  · obtain ⟨ha1, ha2, hd3⟩ := hpat
    have h1 := ((mem_orientation_of_asc p ord _).1 ha1).2
    have h2 := ((mem_orientation_of_asc p ord _).1 ha2).2
    have h3 := ((mem_orientation_of_desc p ord _).1 hd3).2
    dsimp only at h1 h2 h3
    omega
  · obtain ⟨hd1, hd2, ha3⟩ := hpat
    have h1 := ((mem_orientation_of_desc p ord _).1 hd1).2
    have h2 := ((mem_orientation_of_desc p ord _).1 hd2).2
    have h3 := ((mem_orientation_of_asc p ord _).1 ha3).2
    dsimp only at h1 h2 h3
    omega

/-- C1: for a valid Dyck path `p`, every triple in `all_orientations p`
passes the validator `is_orientation`. -/
theorem all_orientations_sound (p : List Int) (hd : is_dyck_path p = true) :
    ∀ ao ∈ all_orientations p, is_orientation ao = true := by
  intro ao hao
  obtain ⟨ord, -, rfl⟩ := List.mem_map.1 (List.mem_toFinset.1 hao)
  exact is_orientation_orientation_of p hd ord

/-- Witness for `all_orientations_sound` on the path `(1, 0)`. -/
theorem all_orientations_sound_witness :
    is_orientation (orientation_of [1, 0] [0, 1]) = true :=
  all_orientations_sound [1, 0] (by decide) (orientation_of [1, 0] [0, 1])
    (List.mem_toFinset.2 (List.mem_map.2 ⟨[0, 1], by decide, rfl⟩))

/-! ### Completeness of the 3-cycle check: building a compatible ranking

For an edge relation split into ascents `A` and descents `D` that is
closed under refining an interval (the box sets of Dyck paths have this
shape), forbidding the two 3-cycle patterns is enough to let every vertex
be ranked consistently: the ranking is built by inserting vertex `m` just
after the ranks of its `A`-neighbours, which the 3-cycle freedom shows all
lie below its `D`-neighbours. -/
lemma exists_rank (A D : Nat → Nat → Prop)
    (hBnd : ∀ i j, A i j ∨ D i j → i < j)
    (hclo : ∀ i j k, i < j → j < k → (A i k ∨ D i k) →
      (A i j ∨ D i j) ∧ (A j k ∨ D j k))
    (hdisj : ∀ i j, ¬(A i j ∧ D i j))
    (htriA : ∀ i j k, i < j → j < k → A i j → A j k → ¬D i k)
    (htriD : ∀ i j k, i < j → j < k → D i j → D j k → ¬A i k) :
    ∀ n : Nat, ∃ f : Nat → Nat,
      (∀ i, i < n → f i < n) ∧
      (∀ i j, i < n → j < n → f i = f j → i = j) ∧
      (∀ i j, j < n → A i j → f i < f j) ∧
      (∀ i j, j < n → D i j → f j < f i) := by
  intro n
  induction n with
  | zero =>
    refine ⟨fun x => x, ?_, ?_, ?_, ?_⟩
    · intro i hi
      exact absurd hi (by omega)
    · intro i j hi hj heq
      exact absurd hi (by omega)
    · intro i j hj hAij
      exact absurd hj (by omega)
    · intro i j hj hDij
      exact absurd hj (by omega)
  | succ m ih =>
    classical
    obtain ⟨f, hbound, hinj, hA, hD⟩ := ih
    have hS : ∀ a, a ∈ (Finset.range m).filter (fun i => A i m) ↔
        (a < m ∧ A a m) := by
      intro a
      rw [Finset.mem_filter, Finset.mem_range]
    obtain ⟨t, hts⟩ :
        ∃ t, t = ((Finset.range m).filter (fun i => A i m)).sup
          (fun i => f i + 1) := ⟨_, rfl⟩
    have htub : ∀ i, i < m → A i m → f i + 1 ≤ t := by
      intro i hi hAi
      rw [hts]
      exact @Finset.le_sup _ _ _ _ _ (fun i => f i + 1) i ((hS i).2 ⟨hi, hAi⟩)
    have htm : t ≤ m := by
      rw [hts]
      refine Finset.sup_le ?_
      intro a ha
      have := hbound a ((hS a).1 ha).1
      omega
    have hDge : ∀ i, i < m → D i m → t ≤ f i := by
      intro i him hDim
      rw [hts]
      refine Finset.sup_le ?_
      intro a ha
      obtain ⟨ham, haA⟩ := (hS a).1 ha
      have hne : a ≠ i := fun he => hdisj a m ⟨haA, he ▸ hDim⟩
      rcases Nat.lt_or_ge a i with hai | hia'
      · rcases (hclo a i m hai him (Or.inl haA)).1 with hAai | hDai
        · have := hA a i him hAai
          omega
        · exact absurd haA (htriD a i m hai him hDai hDim)
      · have hia : i < a := by omega
        rcases (hclo i a m hia ham (Or.inr hDim)).1 with hAia | hDia
        · exact absurd hDim (htriA i a m hia ham hAia haA)
        · have := hD i a ham hDia
          omega
    obtain ⟨g, hg⟩ : ∃ g : Nat → Nat, g = fun x =>
        if x = m then t else if f x < t then f x else f x + 1 := ⟨_, rfl⟩
    have hgm : g m = t := by
      simp [hg]
    have hgne : ∀ x, x ≠ m →
        g x = if f x < t then f x else f x + 1 := by
      intro x hx
      simp only [hg]
      rw [if_neg hx]
    refine ⟨g, ?_, ?_, ?_, ?_⟩
    · intro i hi
      by_cases him : i = m
      · rw [him, hgm]
        omega
      · have := hbound i (by omega)
        rw [hgne i him]
        split_ifs <;> omega
    · intro i j hi hj heq
      by_cases him : i = m <;> by_cases hjm : j = m
      · omega
      · rw [him, hgm, hgne j hjm] at heq
        have := hbound j (by omega)
        split_ifs at heq <;> omega
      · rw [hjm, hgm, hgne i him] at heq
        have := hbound i (by omega)
        split_ifs at heq <;> omega
      · rw [hgne i him, hgne j hjm] at heq
        refine hinj i j (by omega) (by omega) ?_
        split_ifs at heq <;> omega
    · intro i j hj hAij
      have hij := hBnd i j (Or.inl hAij)
      by_cases hjm : j = m
      · have him : i < m := by omega
        have h1 := htub i him (by rwa [hjm] at hAij)
        rw [hjm, hgm, hgne i (by omega)]
        split_ifs <;> omega
      · have hjm' : j < m := by omega
        have h1 := hA i j hjm' hAij
        rw [hgne i (by omega), hgne j hjm]
        split_ifs <;> omega
    · intro i j hj hDij
      have hij := hBnd i j (Or.inr hDij)
      by_cases hjm : j = m
      · have him : i < m := by omega
        have h1 := hDge i him (by rwa [hjm] at hDij)
        rw [hjm, hgm, hgne i (by omega)]
        split_ifs <;> omega
      · have hjm' : j < m := by omega
        have h1 := hD i j hjm' hDij
        rw [hgne i (by omega), hgne j hjm]
        split_ifs <;> omega

/-! ### Geometry of the box set of a Dyck path -/

lemma dyck_getD_bound : ∀ p : List Int, is_dyck_path p = true →
    ∀ i : Nat, i < p.length →
      p.getD i 0 + (i : Int) + 1 ≤ (p.length : Int) := by
  intro p
  induction p with
  | nil =>
    intro hd i hi
    simp at hi
  | cons x t ih =>
    intro hd i hi
    rcases (is_dyck_path_cons x t).1 hd with ⟨rfl, rfl⟩ |
      ⟨htne, hx0, hstep, hdt⟩
    · have hi0 : i = 0 := by simp at hi; omega
      subst hi0
      simp
    · cases i with
      | zero =>
        have h0 := ih hdt 0 (List.length_pos.2 htne)
        rw [getD_zero_eq_headD] at h0
        rw [List.getD_cons_zero]
        simp only [List.length_cons]
        push_cast
        push_cast at h0
        omega
      | succ i' =>
        have hi' : i' < t.length := by simp at hi; omega
        have h' := ih hdt i' hi'
        rw [List.getD_cons_succ]
        simp only [List.length_cons]
        push_cast
        push_cast at h'
        omega

lemma dyck_slope : ∀ (p : List Int), is_dyck_path p = true →
    ∀ (d i : Nat), i + d < p.length →
      p.getD i 0 ≤ p.getD (i + d) 0 + (d : Int) := by
  intro p hd d
  induction d with
  | zero =>
    intro i hi
    simp
  | succ d' ih =>
    intro i hi
    have hstep := ((is_dyck_path_iff p).1 hd).2.1 i (by omega)
    have h2 := ih (i + 1) (by omega)
    have heq : i + 1 + d' = i + (d' + 1) := by omega
    rw [heq] at h2
    push_cast at h2 ⊢
    omega

lemma boxes_closure (p : List Int) (hd : is_dyck_path p = true)
    (i j k : Nat) (hij : i < j) (hjk : j < k)
    (hik : ((i : Int), (k : Int)) ∈ boxes_under_path p) :
    ((i : Int), (j : Int)) ∈ boxes_under_path p ∧
    ((j : Int), (k : Int)) ∈ boxes_under_path p := by
  obtain ⟨i', k', heq, hi', hik', hk'⟩ := (mem_boxes_under_path p _).1 hik
  have hcomp : i = i' ∧ k = k' := by
    simpa only [Prod.mk.injEq, Nat.cast_inj] using heq
  obtain ⟨hc1, hc2⟩ := hcomp
  subst hc1
  subst hc2
  have hbnd := dyck_getD_bound p hd i hi'
  have hjlen : j < p.length := by omega
  have hslope := dyck_slope p hd (j - i) i (by omega)
  have heq2 : i + (j - i) = j := by omega
  rw [heq2] at hslope
  constructor
  · exact (mem_boxes_under_path p _).2 ⟨i, j, rfl, hi', hij, by omega⟩
  · exact (mem_boxes_under_path p _).2 ⟨j, k, rfl, hjlen, hjk, by omega⟩

lemma ordRank_map_range (n : Nat) (f : Nat → Nat) (i : Nat) (hi : i < n) :
    ordRank ((List.range n).map f) ((i : Nat) : Int) = f i := by
  unfold ordRank
  rw [Int.toNat_natCast]
  rw [List.getD_eq_getElem ((List.range n).map f) 0 (by simpa using hi)]
  rw [List.getElem_map, List.getElem_range]

/-- Completeness of the 3-cycle check for triples with a non-negative
first component: a validated triple whose reconstructed path is `p` is
one of the permutation-generated orientations of `p`. -/
lemma valid_mem_all_orientations (p : List Int) (hd : is_dyck_path p = true)
    (N : Int) (asc desc : Finset (Int × Int)) (hN : 0 ≤ N)
    (hval : is_orientation (N, asc, desc) = true)
    (hrec : reconstructPath N asc desc = some p) :
    (N, asc, desc) ∈ all_orientations p := by
  have hval' := hval
  rw [is_orientation_of_reconstruct_some (N, asc, desc) p hrec] at hval'
  simp only [Bool.and_eq_true, beq_iff_eq, Bool.not_eq_true'] at hval'
  obtain ⟨⟨⟨-, hI⟩, hU⟩, hcyc⟩ := hval'
  rw [hasThreeCycle, decide_eq_false_iff_not] at hcyc
  have hlen : p.length = N.toNat := by
    obtain ⟨-, -, hmap⟩ := (reconstructPath_eq_some_iff N asc desc p).1 hrec
    rw [hmap]
    simp
  have hNlen : N = (p.length : Int) := by omega
  obtain ⟨A, hA⟩ : ∃ A : Nat → Nat → Prop,
      A = fun (i j : Nat) => ((i : Int), (j : Int)) ∈ asc := ⟨_, rfl⟩
  obtain ⟨D, hD⟩ : ∃ D : Nat → Nat → Prop,
      D = fun (i j : Nat) => ((i : Int), (j : Int)) ∈ desc := ⟨_, rfl⟩
  have hbox : ∀ i j : Nat, (A i j ∨ D i j) ↔
      ((i : Int), (j : Int)) ∈ boxes_under_path p := by
    intro i j
    rw [hA, hD, ← hU, Finset.mem_union]
  have hbnd : ∀ i j, A i j ∨ D i j → i < j ∧ j < p.length ∧ i < p.length := by
    intro i j hij
    obtain ⟨i', j', heq, hi', hij', hj'⟩ :=
      (mem_boxes_under_path p _).1 ((hbox i j).1 hij)
    have hcomp : i = i' ∧ j = j' := by
      simpa only [Prod.mk.injEq, Nat.cast_inj] using heq
    obtain ⟨hc1, hc2⟩ := hcomp
    subst hc1
    subst hc2
    have := dyck_getD_bound p hd i hi'
    exact ⟨hij', by omega, hi'⟩
  have hdisj : ∀ i j, ¬(A i j ∧ D i j) := by
    rintro i j ⟨h1, h2⟩
    rw [hA] at h1
    rw [hD] at h2
    have : ((i : Int), (j : Int)) ∈ asc ∩ desc := Finset.mem_inter.2 ⟨h1, h2⟩
    rw [hI] at this
    exact absurd this (Finset.not_mem_empty _)
  have htriA : ∀ i j k, i < j → j < k → A i j → A j k → ¬D i k := by
    intro i j k hij hjk h1 h2 h3
    have hkn : k < p.length := (hbnd j k (Or.inl h2)).2.1
    refine hcyc ⟨i, ?_, j, ?_, k, ?_, hij, hjk, Or.inl ⟨?_, ?_, ?_⟩⟩
    · exact Finset.mem_range.2 (by omega)
    · exact Finset.mem_range.2 (by omega)
    · exact Finset.mem_range.2 (by omega)
    · rw [hA] at h1
      exact h1
    · rw [hA] at h2
      exact h2
    · rw [hD] at h3
      exact h3
  have htriD : ∀ i j k, i < j → j < k → D i j → D j k → ¬A i k := by
    intro i j k hij hjk h1 h2 h3
    have hkn : k < p.length := (hbnd j k (Or.inr h2)).2.1
    refine hcyc ⟨i, ?_, j, ?_, k, ?_, hij, hjk, Or.inr ⟨?_, ?_, ?_⟩⟩
    · exact Finset.mem_range.2 (by omega)
    · exact Finset.mem_range.2 (by omega)
    · exact Finset.mem_range.2 (by omega)
    · rw [hD] at h1
      exact h1
    · rw [hD] at h2
      exact h2
    · rw [hA] at h3
      exact h3
  have hclo : ∀ i j k, i < j → j < k → (A i k ∨ D i k) →
      (A i j ∨ D i j) ∧ (A j k ∨ D j k) := by
    intro i j k hij hjk hik
    have hcl := boxes_closure p hd i j k hij hjk ((hbox i k).1 hik)
    exact ⟨(hbox i j).2 hcl.1, (hbox j k).2 hcl.2⟩
  obtain ⟨f, hfb, hfinj, hfA, hfD⟩ :=
    exists_rank A D (fun i j h => (hbnd i j h).1) hclo hdisj htriA htriD
      p.length
  have hperm : (List.range p.length).map f ∈
      (List.range p.length).permutations := by
    rw [List.mem_permutations]
    have hnodup : ((List.range p.length).map f).Nodup := by
      refine List.Nodup.map_on ?_ (List.nodup_range _)
      intro x hx y hy hxy
      exact hfinj x y (List.mem_range.1 hx) (List.mem_range.1 hy) hxy
    have hsub : ((List.range p.length).map f) ⊆ List.range p.length := by
      intro a ha
      obtain ⟨x, hx, rfl⟩ := List.mem_map.1 ha
      exact List.mem_range.2 (hfb x (List.mem_range.1 hx))
    exact (List.subperm_of_subset hnodup hsub).perm_of_length_le (by simp)
  have hasc : ((boxes_list p).filter fun b =>
      decide (ordRank ((List.range p.length).map f) b.1 <
        ordRank ((List.range p.length).map f) b.2)).toFinset = asc := by
    ext b
    simp only [List.mem_toFinset, List.mem_filter, decide_eq_true_eq]
    constructor
    · rintro ⟨hbl, hrank⟩
      obtain ⟨i, j, rfl, hi, hij, hj⟩ := (mem_boxes_list p b).1 hbl
      have hbb : ((i : Int), (j : Int)) ∈ boxes_under_path p := by
        rw [boxes_under_path, List.mem_toFinset]
        exact hbl
      rcases (hbox i j).2 hbb with hAij | hDij
      · rw [hA] at hAij
        exact hAij
      · have hjb := hbnd i j (Or.inr hDij)
        have hlt := hfD i j hjb.2.1 hDij
        dsimp only at hrank
        rw [ordRank_map_range _ f i (by omega),
          ordRank_map_range _ f j (by omega)] at hrank
        omega
    · intro hbasc
      have hbb : b ∈ boxes_under_path p := by
        rw [← hU]
        exact Finset.mem_union_left _ hbasc
      obtain ⟨i, j, rfl, hi, hij, hj⟩ := (mem_boxes_under_path p b).1 hbb
      have hAij : A i j := by
        rw [hA]
        exact hbasc
      have hjb := hbnd i j (Or.inl hAij)
      refine ⟨by rwa [boxes_under_path, List.mem_toFinset] at hbb, ?_⟩
      dsimp only
      rw [ordRank_map_range _ f i (by omega),
        ordRank_map_range _ f j (by omega)]
      exact hfA i j hjb.2.1 hAij
  have hdesc : ((boxes_list p).filter fun b =>
      !decide (ordRank ((List.range p.length).map f) b.1 <
        ordRank ((List.range p.length).map f) b.2)).toFinset = desc := by
    ext b
    simp only [List.mem_toFinset, List.mem_filter, Bool.not_eq_true',
      decide_eq_false_iff_not]
    constructor
    · rintro ⟨hbl, hrank⟩
      obtain ⟨i, j, rfl, hi, hij, hj⟩ := (mem_boxes_list p b).1 hbl
      have hbb : ((i : Int), (j : Int)) ∈ boxes_under_path p := by
        rw [boxes_under_path, List.mem_toFinset]
        exact hbl
      rcases (hbox i j).2 hbb with hAij | hDij
      · have hjb := hbnd i j (Or.inl hAij)
        have hlt := hfA i j hjb.2.1 hAij
        dsimp only at hrank
        rw [ordRank_map_range _ f i (by omega),
          ordRank_map_range _ f j (by omega)] at hrank
        omega
      · rw [hD] at hDij
        exact hDij
    · intro hbdesc
      have hbb : b ∈ boxes_under_path p := by
        rw [← hU]
        exact Finset.mem_union_right _ hbdesc
      obtain ⟨i, j, rfl, hi, hij, hj⟩ := (mem_boxes_under_path p b).1 hbb
      have hDij : D i j := by
        rw [hD]
        exact hbdesc
      have hjb := hbnd i j (Or.inr hDij)
      refine ⟨by rwa [boxes_under_path, List.mem_toFinset] at hbb, ?_⟩
      dsimp only
      rw [ordRank_map_range _ f i (by omega),
        ordRank_map_range _ f j (by omega)]
      have := hfD i j hjb.2.1 hDij
      omega
  have heq : orientation_of p ((List.range p.length).map f)
      = (N, asc, desc) := by
    unfold orientation_of
    rw [hasc, hdesc, hNlen]
  rw [← heq]
  exact List.mem_toFinset.2 (List.mem_map.2 ⟨_, hperm, rfl⟩)

/-- C2 counterexample: the triple `(-5, ∅, ∅)` passes `is_orientation`
(the reconstructed path `[0]*(-5) = ()` is a valid Dyck path, and all the
remaining checks are vacuous), and its reconstructed path is the empty
path, yet it is not in `all_orientations(())`, whose single element is
`(0, ∅, ∅)`.  So the validated triples reconstructing to a path `p` are
not exactly `all_orientations(p)` as the claim states. -/
theorem is_orientation_negative_n_escapes :
    is_orientation
      (-5, (∅ : Finset (Int × Int)), (∅ : Finset (Int × Int))) = true ∧
    reconstructPath (-5) (∅ : Finset (Int × Int)) (∅ : Finset (Int × Int))
      = some ([] : List Int) ∧
    is_dyck_path ([] : List Int) = true ∧
    ((-5 : Int), (∅ : Finset (Int × Int)), (∅ : Finset (Int × Int))) ∉
      all_orientations ([] : List Int) := by
  have hrec : reconstructPath (-5) (∅ : Finset (Int × Int))
      (∅ : Finset (Int × Int)) = some ([] : List Int) := by
    rw [reconstructPath_eq_some_iff]
    exact ⟨by simp, by simp, rfl⟩
  refine ⟨?_, hrec, rfl, ?_⟩
  · rw [is_orientation_of_reconstruct_some _ [] hrec]
    have h3 : hasThreeCycle (-5) (∅ : Finset (Int × Int))
        (∅ : Finset (Int × Int)) = false := by
      rw [hasThreeCycle, decide_eq_false_iff_not]
      rintro ⟨i, hi, -⟩
      simp at hi
    rw [h3]
    have h1 : ((∅ : Finset (Int × Int)) ∩ ∅ == (∅ : Finset (Int × Int)))
        = true := by
      simp
    have h2 : ((∅ : Finset (Int × Int)) ∪ ∅ == boxes_under_path []) = true := by
      have : boxes_under_path ([] : List Int) = ∅ := rfl
      rw [this]
      simp
    rw [h1, h2]
    rfl
  · intro hmem
    obtain ⟨ord, -, heq⟩ := List.mem_map.1 (List.mem_toFinset.1 hmem)
    have h1 := congrArg Prod.fst heq
    have h2 : (orientation_of [] ord).1 = (0 : Int) := rfl
    rw [h2] at h1
    exact absurd h1 (by decide)

/-- C2 (amended): for every valid Dyck path `p`, the triples with
*non-negative* first component that pass `is_orientation` and whose
reconstructed path is `p` are exactly the elements of
`all_orientations p`; equivalently, every disjoint exhaustive
ascent/descent partition of `boxes_under_path p` without 3-cycles arises
from a total ordering of the rows.  (The non-negativity proviso is forced
by the counterexample `(-5, ∅, ∅)`.) -/
theorem is_orientation_complete_for_path (p : List Int)
    (hd : is_dyck_path p = true) (N : Int)
    (asc desc : Finset (Int × Int)) (hN : 0 ≤ N) :
    (is_orientation (N, asc, desc) = true ∧
     reconstructPath N asc desc = some p) ↔
    (N, asc, desc) ∈ all_orientations p := by
  constructor
  · rintro ⟨hval, hrec⟩
    exact valid_mem_all_orientations p hd N asc desc hN hval hrec
  · intro hmem
    obtain ⟨ord, -, heq⟩ := List.mem_map.1 (List.mem_toFinset.1 hmem)
    obtain ⟨hn, ha, hde⟩ : N = (orientation_of p ord).1 ∧
        asc = (orientation_of p ord).2.1 ∧
        desc = (orientation_of p ord).2.2 := by
      rw [heq]
      exact ⟨rfl, rfl, rfl⟩
    subst hn
    subst ha
    subst hde
    exact ⟨is_orientation_orientation_of p hd ord,
      reconstructPath_of_partition p hd _ _ (orientation_of_union p ord)
        (orientation_of_inter p ord)⟩

/-- Witness for `is_orientation_complete_for_path` at the path `(1, 0)`
with the ascent orientation `(2, {(0, 1)}, ∅)`. -/
theorem is_orientation_complete_for_path_witness :
    (is_orientation (2, ({((0 : Int), (1 : Int))} : Finset (Int × Int)),
        (∅ : Finset (Int × Int))) = true ∧
     reconstructPath 2 ({((0 : Int), (1 : Int))} : Finset (Int × Int))
        (∅ : Finset (Int × Int)) = some [1, 0]) ↔
    ((2 : Int), ({((0 : Int), (1 : Int))} : Finset (Int × Int)),
        (∅ : Finset (Int × Int))) ∈ all_orientations [1, 0] :=
  is_orientation_complete_for_path [1, 0] (by decide) 2 _ _ (by decide)

end PetiteEcole
